import Mathlib

/-!
Shallow embedding of the snapshot LayeredMap (src/pkg/snapshot/layered_map.go)
and of the dockerfile stage utilities ResolveStages and Dependencies
(src/unnamed/part_000), together with proofs of the specification claims.

Go maps with string keys are modelled as association lists kept strictly
sorted by key, so that list equality coincides with extensional map equality.
This matches the JSON encoder used by Key, which serializes Go string-keyed
maps with sorted keys.
-/

namespace Kaniko

/-- A Go map[string]string, as a key-sorted association list. -/
abbrev Smap := List (String × String)

/-- A Go map[string]struct\x7b\x7d used as a set of paths, as a sorted list. -/
abbrev Sset := List String

/-- Lexicographic order on character lists by code point, as a Boolean.
UTF-8 byte order and code point order agree, so this is the key order the
Go JSON encoder sorts by. -/
def charListLtb : List Char → List Char → Bool
  | [], [] => false
  | [], _ :: _ => true
  | _ :: _, [] => false
  | a :: as, b :: bs =>
    if a.toNat < b.toNat then true
    else if b.toNat < a.toNat then false
    else charListLtb as bs

/-- Boolean string order used to keep the association lists sorted. -/
def strLtb (a b : String) : Bool := charListLtb a.data b.data

/-- Assignment m[k] = v on a sorted association list. -/
def insertS : Smap → String → String → Smap
  | [], k, v => [(k, v)]
  | (k', v') :: t, k, v =>
    if strLtb k k' then (k, v) :: (k', v') :: t
    else if k = k' then (k, v) :: t
    else (k', v') :: insertS t k v

/-- Lookup m[k] on an association list. -/
def findS : Smap → String → Option String
  | [], _ => none
  | (k', v') :: t, k => if k = k' then some v' else findS t k

/-- Go delete(m, k) on an association list. -/
def eraseS : Smap → String → Smap
  | [], _ => []
  | (k', v') :: t, k => if k = k' then t else (k', v') :: eraseS t k

/-- Insertion into a path set, modelling m[k] = struct\x7b\x7d\x7b\x7d. -/
def insertW : Sset → String → Sset
  | [], k => [k]
  | k' :: t, k =>
    if strLtb k k' then k :: k' :: t
    else if k = k' then k' :: t
    else k' :: insertW t k

/-- One iteration of the flattening loop in UpdateCurrentImage: write all
added files of the layer into the accumulator, then delete its whiteouts. -/
def applyLayer (acc : Smap) (adds : Smap) (dels : Sset) : Smap :=
  dels.foldl (fun a d => eraseS a d) (adds.foldl (fun a kv => insertS a kv.1 kv.2) acc)

/-- The flattening loop of UpdateCurrentImage over all layers, starting from
the empty image. The Go code indexes whiteouts[i] next to layers[i]; the two
lists always have equal length on every reachable map (see the length
invariant below), so the zip loses nothing. -/
def flatten (layers : List Smap) (whiteouts : List Sset) : Smap :=
  (layers.zip whiteouts).foldl (fun acc lw => applyLayer acc lw.1 lw.2) []

/-- The LayeredMap struct of src/pkg/snapshot/layered_map.go. The two hash
functions are modelled as partial functions, none meaning a hashing error. -/
structure LayeredMap where
  layers : List Smap
  whiteouts : List Sset
  currentImage : Smap
  isCurrentImageValid : Bool
  layerHashCache : Smap
  hasher : String → Option String
  cacheHasher : String → Option String

/-- NewLayeredMap from the source: empty currentImage and hash cache. -/
def NewLayeredMap (h c : String → Option String) : LayeredMap :=
  { layers := [], whiteouts := [], currentImage := [], isCurrentImageValid := false,
    layerHashCache := [], hasher := h, cacheHasher := c }

/-- UpdateCurrentImage: recompute the flattened image unless the cache is
still marked valid. -/
def LayeredMap.UpdateCurrentImage (l : LayeredMap) : LayeredMap :=
  if l.isCurrentImageValid then l
  else { l with currentImage := flatten l.layers l.whiteouts, isCurrentImageValid := true }

/-- Snapshot (the open-layer operation): save the current state of the image,
push one empty whiteout set and one empty layer, erase the hash cache. -/
def LayeredMap.Snapshot (l : LayeredMap) : LayeredMap :=
  { l.UpdateCurrentImage with
      whiteouts := l.UpdateCurrentImage.whiteouts ++ [[]],
      layers := l.UpdateCurrentImage.layers ++ [[]],
      layerHashCache := [] }

/-- Key returns a digest of the added layers only (Go: util.SHA256 of the JSON
encoding of l.layers). Modelled from the spec: util.SHA256 and the JSON
encoder are not under src; per the spec they form a stable, order-preserving,
collision-free digest of the layer list, whose string-keyed maps serialize
with sorted keys, matching the canonical sorted representation used here.
The digest is therefore modelled as the canonical layer list itself. -/
def LayeredMap.Key (l : LayeredMap) : List Smap := l.layers

/-- The downward scan of Get: the Go loop runs i from len-1 down to 0, so a
hit in a later (higher) layer wins over every earlier one. -/
def scanTop (s : String) : List Smap → Option String
  | [] => none
  | a :: t =>
    match scanTop s t with
    | some v => some v
    | none => findS a s

/-- Get from the source: scan the added layers top-down, whiteouts ignored. -/
def LayeredMap.Get (l : LayeredMap) (s : String) : Option String := scanTop s l.layers

/-- GetCurrentPaths: refresh the current image, return the set of its keys
(and the refreshed map, since the Go method mutates the receiver). -/
def LayeredMap.GetCurrentPaths (l : LayeredMap) : List String × LayeredMap :=
  (l.UpdateCurrentImage.currentImage.map Prod.fst, l.UpdateCurrentImage)

/-- AddWhiteout: mark the image stale and record s in the top whiteout set.
With no open layer the Go code indexes whiteouts[-1] and panics: none. The
Go method clears the validity flag before indexing, but the panic destroys
the state, so clearing it only on the surviving path is equivalent. -/
def LayeredMap.AddWhiteout (l : LayeredMap) (s : String) : Option LayeredMap :=
  match l.whiteouts.getLast? with
  | none => none
  | some w =>
    some { l with isCurrentImageValid := false,
                  whiteouts := l.whiteouts.dropLast ++ [insertW w s] }

/-- The inner hash closure of Add: take the cached hash if present, otherwise
invoke the layer hasher. -/
def LayeredMap.hashLookup (l : LayeredMap) (s : String) : Option String :=
  match findS l.layerHashCache s with
  | some v => some v
  | none => l.hasher s

/-- Possible outcomes of Add: success, an error return from hashing, or the
runtime panic from indexing layers[-1] when no layer is open. -/
inductive AddResult where
  | ok (m : LayeredMap)
  | hashError (m : LayeredMap)
  | panicked

/-- Add from the source: mark the image stale, hash (cache first), return the
hash error if any, then write into the top layer, panicking if none exists.
The Go method clears the validity flag before hashing; neither the hash
closure nor the indexing reads the flag, so setting it per return path is
equivalent. -/
def LayeredMap.Add (l : LayeredMap) (s : String) : AddResult :=
  match l.hashLookup s with
  | none => AddResult.hashError { l with isCurrentImageValid := false }
  | some v =>
    match l.layers.getLast? with
    | none => AddResult.panicked
    | some top =>
      AddResult.ok { l with isCurrentImageValid := false,
                            layers := l.layers.dropLast ++ [insertS top s v] }

/-- CheckFileChange from the source: hash the path, record the hash in the
layer hash cache, and compare against the currentImage field as it is, with
no refresh. none models the error return when the hasher fails. -/
def LayeredMap.CheckFileChange (l : LayeredMap) (s : String) : Option (Bool × LayeredMap) :=
  match l.hasher s with
  | none => none
  | some newV =>
    match findS l.currentImage s with
    | some oldV =>
      if newV = oldV then
        some (false, { l with layerHashCache := insertS l.layerHashCache s newV })
      else
        some (true, { l with layerHashCache := insertS l.layerHashCache s newV })
    | none => some (true, { l with layerHashCache := insertS l.layerHashCache s newV })

/-- The public operations of the LayeredMap, for reasoning over call
sequences. -/
inductive Op where
  | snapshot
  | add (s : String)
  | addWhiteout (s : String)
  | checkFileChange (s : String)
  | currentPaths

/-- One API call. none models a Go panic (the process dies); error returns
from Add and CheckFileChange leave the map alive, so they yield a state. -/
def step (m : LayeredMap) : Op → Option LayeredMap
  | Op.snapshot => some m.Snapshot
  | Op.add s =>
    match m.Add s with
    | AddResult.ok m' => some m'
    | AddResult.hashError m' => some m'
    | AddResult.panicked => none
  | Op.addWhiteout s => m.AddWhiteout s
  | Op.checkFileChange s =>
    match m.CheckFileChange s with
    | some p => some p.2
    | none => some m
  | Op.currentPaths => some (m.GetCurrentPaths).2

/-- Run a sequence of API calls. -/
def runOps (m : LayeredMap) : List Op → Option LayeredMap
  | [] => some m
  | op :: t =>
    match step m op with
    | some m' => runOps m' t
    | none => none

/-- Every cached hash agrees with the layer hasher. -/
def cacheOk (m : LayeredMap) : Prop :=
  ∀ k v, findS m.layerHashCache k = some v → m.hasher k = some v

/-- The state invariant of the LayeredMap: equal stack lengths, a current
image that agrees with the flattening whenever it is marked valid, and a
hash cache that agrees with the hasher. -/
def MapInv (m : LayeredMap) : Prop :=
  m.layers.length = m.whiteouts.length ∧
  (m.isCurrentImageValid = true → m.currentImage = flatten m.layers m.whiteouts) ∧
  cacheOk m

/-! Dockerfile stage utilities of src/unnamed/part_000. The instruction AST
comes from the vendored docker parser, which is not under src; it is modelled
from the spec: per stage an optional symbolic name, a base reference and a
command list, where commands are a tagged union including EnvAssign,
ArgDeclare and CrossStageCopy (From, sources and destination). -/

/-- The commands of a stage that Dependencies and ResolveStages inspect.
copyCmd carries the From field and SourcesAndDest (sources then the
destination, as one list, as in the docker CopyCommand). -/
inductive DCommand where
  | envCmd (pairs : List (String × String))
  | argCmd (key : String) (value : Option String)
  | copyCmd (fromStage : String) (sourcesAndDest : List String)
  | otherCmd
deriving DecidableEq

/-- A parsed stage: symbolic name, base image reference, commands. -/
structure DStage where
  name : String
  baseName : String
  commands : List DCommand
deriving DecidableEq

/-- constants.NoBaseImage. Modelled from the spec: the sentinel base
reference meaning no base image (scratch). -/
def NoBaseImage : String := "scratch"

/-- Rewrite the copy commands of one stage under the name-to-index map. -/
def resolveCmds (nti : Smap) : List DCommand → List DCommand :=
  List.map fun c =>
    match c with
    | DCommand.copyCmd fr sd =>
      if fr ≠ "" then
        match findS nti fr with
        | some v => DCommand.copyCmd v sd
        | none => DCommand.copyCmd fr sd
      else DCommand.copyCmd fr sd
    | c => c

/-- The loop of ResolveStages: at stage i, first record name to index in the
map when the name is not already the index string, then rewrite the copy
commands of this very stage with the updated map. -/
def resolveAux (nti : Smap) (i : Nat) : List DStage → List DStage
  | [] => []
  | st :: rest =>
    let idx := toString i
    let nti' := if st.name ≠ idx then insertS nti st.name idx else nti
    { st with commands := resolveCmds nti' st.commands } :: resolveAux nti' (i + 1) rest

/-- ResolveStages from the source: resolve symbolic stage names in From
fields of copy commands to index strings, in declaration order. -/
def ResolveStages (stages : List DStage) : List DStage := resolveAux [] 0 stages

/-- The external collaborators Dependencies calls into; none of them is under
src. Modelled from the spec: base-image resolution yields the configured
environment of the image (or fails), ReplacementEnvs combines the registered
build arguments with an environment, UpdateConfigEnv applies EnvAssign pairs
to the configured environment, ResolveEnvironmentReplacementList substitutes
variables in the source entries, and ResolveSources expands wildcards of the
source entries against the rootfs. -/
structure DepOracles where
  configOf : String → Except String (List String)
  replacementEnvs : List (String × Option String) → List String → List String
  updateConfigEnv : List (String × String) → List String → List String → Except String (List String)
  resolveEnvList : List String → List String → Except String (List String)
  resolveSources : List String → Except String (List String)

/-- filepath.IsAbs plus filepath.Join(constants.RootDir, src) for relative
sources. Modelled from the spec: relative paths are made absolute by
prepending the working root. -/
def absolutize (s : String) : String :=
  match s.data with
  | '/' :: _ => s
  | _ => "/" ++ s

/-- The inner command loop of Dependencies for one later stage: EnvCommand
updates the stage environment, ArgCommand registers a build argument, and a
CopyCommand whose From equals the index of the current stage appends its
resolved, absolutized sources to the accumulated dependency list. -/
def procCmds (E : DepOracles) (index : Nat) :
    List DCommand → List String → List (String × Option String) → List String →
    Except String (List String × List (String × Option String) × List String)
  | [], env, ba, acc => Except.ok (env, ba, acc)
  | DCommand.envCmd pairs :: rest, env, ba, acc =>
    match E.updateConfigEnv pairs env (E.replacementEnvs ba env) with
    | Except.error e => Except.error e
    | Except.ok env' => procCmds E index rest env' ba acc
  | DCommand.argCmd k v :: rest, env, ba, acc => procCmds E index rest env (ba ++ [(k, v)]) acc
  | DCommand.copyCmd fr sd :: rest, env, ba, acc =>
    if fr ≠ toString index then procCmds E index rest env ba acc
    else
      match E.resolveEnvList sd (E.replacementEnvs ba env) with
      | Except.error e => Except.error e
      | Except.ok resolved =>
        match E.resolveSources resolved with
        | Except.error e => Except.error e
        | Except.ok srcs => procCmds E index rest env ba (acc ++ srcs.map absolutize)
  | DCommand.otherCmd :: rest, env, ba, acc => procCmds E index rest env ba acc

/-- The outer stage loop of Dependencies: skip stages up to the current
index; for each later stage determine its base image environment (no base,
the just-built current image, or external resolution) and replay its
commands. Build arguments persist across stages, as the Go code mutates the
shared BuildArgs. -/
def depStages (E : DepOracles) (index : Nat) (curName : String) (imageEnv : List String) :
    List (Nat × DStage) → List (String × Option String) → List String →
    Except String (List String × List (String × Option String))
  | [], ba, acc => Except.ok (acc, ba)
  | (si, st) :: rest, ba, acc =>
    if si ≤ index then depStages E index curName imageEnv rest ba acc
    else
      match
        (if st.baseName = NoBaseImage then Except.ok []
         else if st.baseName = curName then Except.ok imageEnv
         else E.configOf st.baseName : Except String (List String)) with
      | Except.error e => Except.error e
      | Except.ok env0 =>
        match procCmds E index st.commands env0 ba acc with
        | Except.error e => Except.error e
        | Except.ok (_, ba', acc') => depStages E index curName imageEnv rest ba' acc'

/-- Dependencies from the source: the files of stage index that later stages
reference through cross-stage copies. imageEnv is the configured environment
of the just-built image of the current stage, ba0 the incoming build
arguments. -/
def Dependencies (E : DepOracles) (index : Nat) (stages : List DStage)
    (imageEnv : List String) (ba0 : List (String × Option String)) :
    Except String (List String) :=
  (depStages E index (((stages.get? index).map DStage.name).getD "") imageEnv
    stages.enum ba0 []).map Prod.fst

/-- The per-copy contribution lists: the same replay as procCmds, collecting
the resolved absolutized source list of each matching copy separately. -/
def procCmdsLists (E : DepOracles) (index : Nat) :
    List DCommand → List String → List (String × Option String) → List (List String) →
    Except String (List String × List (String × Option String) × List (List String))
  | [], env, ba, acc => Except.ok (env, ba, acc)
  | DCommand.envCmd pairs :: rest, env, ba, acc =>
    match E.updateConfigEnv pairs env (E.replacementEnvs ba env) with
    | Except.error e => Except.error e
    | Except.ok env' => procCmdsLists E index rest env' ba acc
  | DCommand.argCmd k v :: rest, env, ba, acc => procCmdsLists E index rest env (ba ++ [(k, v)]) acc
  | DCommand.copyCmd fr sd :: rest, env, ba, acc =>
    if fr ≠ toString index then procCmdsLists E index rest env ba acc
    else
      match E.resolveEnvList sd (E.replacementEnvs ba env) with
      | Except.error e => Except.error e
      | Except.ok resolved =>
        match E.resolveSources resolved with
        | Except.error e => Except.error e
        | Except.ok srcs => procCmdsLists E index rest env ba (acc ++ [srcs.map absolutize])
  | DCommand.otherCmd :: rest, env, ba, acc => procCmdsLists E index rest env ba acc

/-- The outer loop of the per-copy contribution view. -/
def depStagesLists (E : DepOracles) (index : Nat) (curName : String) (imageEnv : List String) :
    List (Nat × DStage) → List (String × Option String) → List (List String) →
    Except String (List (List String) × List (String × Option String))
  | [], ba, acc => Except.ok (acc, ba)
  | (si, st) :: rest, ba, acc =>
    if si ≤ index then depStagesLists E index curName imageEnv rest ba acc
    else
      match
        (if st.baseName = NoBaseImage then Except.ok []
         else if st.baseName = curName then Except.ok imageEnv
         else E.configOf st.baseName : Except String (List String)) with
      | Except.error e => Except.error e
      | Except.ok env0 =>
        match procCmdsLists E index st.commands env0 ba acc with
        | Except.error e => Except.error e
        | Except.ok (_, ba', acc') => depStagesLists E index curName imageEnv rest ba' acc'

/-- The list of per-copy resolved source lists, one list per matching
cross-stage copy, in stage and command order. -/
def DependenciesLists (E : DepOracles) (index : Nat) (stages : List DStage)
    (imageEnv : List String) (ba0 : List (String × Option String)) :
    Except String (List (List String)) :=
  (depStagesLists E index (((stages.get? index).map DStage.name).getD "") imageEnv
    stages.enum ba0 []).map Prod.fst

/-! The effect of a call sequence on the added layers alone, used to state
that Key depends only on the add history. -/

/-- Snapshot pushes an empty layer and a successful Add writes the hash
computed by the layer hasher into the top layer; every other call leaves
the added layers unchanged. -/
def applyAdds (h : String → Option String) : List Op → List Smap → List Smap
  | [], ls => ls
  | Op.snapshot :: t, ls => applyAdds h t (ls ++ [[]])
  | Op.add s :: t, ls =>
    applyAdds h t
      (match h s, ls.getLast? with
       | some v, some top => ls.dropLast ++ [insertS top s v]
       | _, _ => ls)
  | _ :: t, ls => applyAdds h t ls

/-- The subsequence of a call sequence that can touch the added layers. -/
def addTrace : List Op → List Op
  | [] => []
  | Op.snapshot :: t => Op.snapshot :: addTrace t
  | Op.add s :: t => Op.add s :: addTrace t
  | _ :: t => addTrace t

/-! Concrete scenarios used by witnesses and counterexamples. -/

/-- A total layer hasher mapping every path to itself. -/
def hId : String → Option String := fun s => some s

/-- A layer hasher that fails on the path /bad. -/
def hBad : String → Option String := fun s => if s = "/bad" then none else some s

/-- The S1 call sequence of the spec. -/
def opsS1 : List Op :=
  [Op.snapshot, Op.add "/a", Op.add "/b", Op.snapshot, Op.addWhiteout "/a", Op.add "/c"]

/-- The map reached by the S1 call sequence. -/
def mS1 : LayeredMap := (runOps (NewLayeredMap hId hId) opsS1).getD (NewLayeredMap hId hId)

/-- The map reached by one Snapshot followed by Add of /a. -/
def mAfterAdd : LayeredMap :=
  (runOps (NewLayeredMap hId hId) [Op.snapshot, Op.add "/a"]).getD (NewLayeredMap hId hId)

/-- The map produced by CheckFileChange of /a on mAfterAdd. -/
def mAfterCheck : LayeredMap := ((mAfterAdd.CheckFileChange "/a").getD (true, mAfterAdd)).2

/-- A map where /a was added in a closed layer and whited out in the top. -/
def mGetScenario : LayeredMap :=
  (runOps (NewLayeredMap hId hId)
    [Op.snapshot, Op.add "/a", Op.snapshot, Op.addWhiteout "/a"]).getD (NewLayeredMap hId hId)

/-- A call sequence adding /a. -/
def ops6a : List Op := [Op.snapshot, Op.add "/a"]

/-- The same add history as ops6a with an extra whiteout. -/
def ops6b : List Op := [Op.snapshot, Op.add "/a", Op.addWhiteout "/b"]

/-- The map reached by ops6a. -/
def m6a : LayeredMap := (runOps (NewLayeredMap hId hId) ops6a).getD (NewLayeredMap hId hId)

/-- The map reached by ops6b. -/
def m6b : LayeredMap := (runOps (NewLayeredMap hId hId) ops6b).getD (NewLayeredMap hId hId)

/-- A fresh map with one open layer. -/
def m4Snap : LayeredMap := (NewLayeredMap hId hId).Snapshot

/-- One open layer over the failing hasher. -/
def mBad : LayeredMap :=
  (runOps (NewLayeredMap hBad hBad) [Op.snapshot]).getD (NewLayeredMap hBad hBad)

/-- mBad with the validity flag cleared, the state left by a failed Add. -/
def mBadAfter : LayeredMap := { mBad with isCurrentImageValid := false }

/-- Oracles for concrete Dependencies runs: no substitution, no wildcards,
the destination (last entry) dropped when resolving sources. -/
def E0 : DepOracles :=
  { configOf := fun _ => Except.ok []
    replacementEnvs := fun _ env => env
    updateConfigEnv := fun _ env _ => Except.ok env
    resolveEnvList := fun l _ => Except.ok l
    resolveSources := fun l => Except.ok l.dropLast }

/-- A build script where two later copies name the same source /x of stage 0. -/
def stagesDup : List DStage :=
  [{ name := "builder", baseName := "alpine", commands := [] },
   { name := "final", baseName := "alpine",
     commands := [DCommand.copyCmd "0" ["/x", "/dest"], DCommand.copyCmd "0" ["/x", "/dest2"]] }]

/-- A script whose first two stages are named with the swapped numeric index
strings of each other. -/
def stagesNum : List DStage :=
  [{ name := "1", baseName := "alpine", commands := [] },
   { name := "0", baseName := "alpine", commands := [] },
   { name := "2", baseName := "alpine", commands := [DCommand.copyCmd "1" ["/x", "/d"]] }]

/-- The S3 script of the spec: a named builder stage and a runtime stage
copying from it. -/
def stagesNamed : List DStage :=
  [{ name := "builder", baseName := "alpine", commands := [] },
   { name := "runtime", baseName := "alpine",
     commands := [DCommand.copyCmd "builder" ["/out/app", "/usr/bin/app"]] }]

/-! Basic lemmas about the association list operations. -/

theorem findS_insertS (m : Smap) (k v q : String) :
    findS (insertS m k v) q = if q = k then some v else findS m q := by
  induction m with
  | nil => simp [insertS, findS]
  | cons hd t ih =>
    obtain ⟨k', v'⟩ := hd
    by_cases hlt : strLtb k k'
    · by_cases hq : q = k <;> simp [insertS, hlt, findS, hq]
    · by_cases heq : k = k'
      · subst heq
        by_cases hq : q = k <;> simp [insertS, hlt, findS, hq]
      · by_cases hq : q = k'
        · have hqk : q ≠ k := fun h => heq (h ▸ hq)
          have hkk : k' ≠ k := fun h => heq h.symm
          simp [insertS, hlt, heq, findS, hq, hqk, hkk]
        · simp [insertS, hlt, heq, findS, hq, ih]

theorem applyLayer_empty (acc : Smap) : applyLayer acc [] [] = acc := rfl

theorem zip_snoc {α β : Type} (l₁ : List α) (l₂ : List β) (a : α) (b : β)
    (h : l₁.length = l₂.length) :
    (l₁ ++ [a]).zip (l₂ ++ [b]) = l₁.zip l₂ ++ [(a, b)] := by
  induction l₁ generalizing l₂ with
  | nil =>
    cases l₂ with
    | nil => rfl
    | cons x t => simp at h
  | cons x t ih =>
    cases l₂ with
    | nil => simp at h
    | cons y u =>
      simp only [List.cons_append, List.zip_cons_cons]
      rw [ih u (by simpa using h)]

theorem flatten_snoc_empty (ls : List Smap) (ws : List Sset) (h : ls.length = ws.length) :
    flatten (ls ++ [[]]) (ws ++ [[]]) = flatten ls ws := by
  unfold flatten
  rw [zip_snoc ls ws [] [] h, List.foldl_append]
  rfl

theorem scanTop_append (s : String) (l₁ l₂ : List Smap) :
    scanTop s (l₁ ++ l₂) =
      match scanTop s l₂ with
      | some v => some v
      | none => scanTop s l₁ := by
  induction l₁ with
  | nil =>
    simp only [List.nil_append]
    cases scanTop s l₂ <;> rfl
  | cons a t ih =>
    simp only [List.cons_append, scanTop, List.append_eq]
    rw [ih]
    cases scanTop s l₂ <;> rfl

theorem scanTop_eq_none (s : String) (ls : List Smap) :
    scanTop s ls = none ↔ ∀ l, l ∈ ls → findS l s = none := by
  induction ls with
  | nil => simp [scanTop]
  | cons a t ih =>
    simp only [scanTop]
    cases h : scanTop s t with
    | some v =>
      constructor
      · intro hh; cases hh
      · intro hall
        have ht : scanTop s t = none := ih.mpr fun l hl => hall l (List.mem_cons_of_mem a hl)
        rw [h] at ht; cases ht
    | none =>
      constructor
      · intro ha l hl
        rcases List.mem_cons.mp hl with h1 | h2
        · subst h1; exact ha
        · exact (ih.mp h) l h2
      · intro hall
        exact hall a (List.mem_cons_self a t)

theorem hashLookup_eq_hasher (m : LayeredMap) (hc : cacheOk m) (s : String) :
    m.hashLookup s = m.hasher s := by
  unfold LayeredMap.hashLookup
  cases h : findS m.layerHashCache s with
  | none => rfl
  | some v => exact (hc s v h).symm

/-! Lemmas about UpdateCurrentImage. -/

theorem updateCurrentImage_layers (m : LayeredMap) :
    m.UpdateCurrentImage.layers = m.layers ∧
    m.UpdateCurrentImage.whiteouts = m.whiteouts ∧
    m.UpdateCurrentImage.layerHashCache = m.layerHashCache ∧
    m.UpdateCurrentImage.hasher = m.hasher := by
  unfold LayeredMap.UpdateCurrentImage
  by_cases h : m.isCurrentImageValid = true <;> simp [h]

theorem updateCurrentImage_image (m : LayeredMap)
    (hci : m.isCurrentImageValid = true → m.currentImage = flatten m.layers m.whiteouts) :
    m.UpdateCurrentImage.currentImage = flatten m.layers m.whiteouts ∧
    m.UpdateCurrentImage.isCurrentImageValid = true := by
  unfold LayeredMap.UpdateCurrentImage
  by_cases h : m.isCurrentImageValid = true <;> simp [h, hci]

theorem updateCurrentImage_valid (m : LayeredMap) :
    m.UpdateCurrentImage.isCurrentImageValid = true := by
  unfold LayeredMap.UpdateCurrentImage
  by_cases h : m.isCurrentImageValid = true <;> simp [h]

theorem ne_nil_of_getLast? {α : Type} (l : List α) (a : α) (h : l.getLast? = some a) :
    l ≠ [] := by
  intro he
  subst he
  cases h

theorem length_dropLast_append {α : Type} (l : List α) (a : α) (h : l ≠ []) :
    (l.dropLast ++ [a]).length = l.length := by
  have hp : 0 < l.length := List.length_pos.mpr h
  simp only [List.length_append, List.length_dropLast, List.length_cons, List.length_nil]
  omega

/-! Field characterizations of the LayeredMap operations. -/

theorem snapshot_fields (m : LayeredMap) :
    m.Snapshot.layers = m.layers ++ [[]] ∧
    m.Snapshot.whiteouts = m.whiteouts ++ [[]] ∧
    m.Snapshot.layerHashCache = [] ∧
    m.Snapshot.isCurrentImageValid = true ∧
    m.Snapshot.currentImage = m.UpdateCurrentImage.currentImage ∧
    m.Snapshot.hasher = m.hasher := by
  obtain ⟨hl, hw, _, hh⟩ := updateCurrentImage_layers m
  refine ⟨?_, ?_, rfl, ?_, rfl, ?_⟩
  · show m.UpdateCurrentImage.layers ++ [[]] = m.layers ++ [[]]
    rw [hl]
  · show m.UpdateCurrentImage.whiteouts ++ [[]] = m.whiteouts ++ [[]]
    rw [hw]
  · exact updateCurrentImage_valid m
  · exact hh

theorem add_ok_fields (m : LayeredMap) (s : String) (m' : LayeredMap)
    (h : m.Add s = AddResult.ok m') :
    ∃ v top, m.hashLookup s = some v ∧ m.layers.getLast? = some top ∧
      m' = { m with isCurrentImageValid := false,
                    layers := m.layers.dropLast ++ [insertS top s v] } := by
  unfold LayeredMap.Add at h
  cases hh : m.hashLookup s with
  | none => rw [hh] at h; cases h
  | some v =>
    rw [hh] at h
    cases ht : m.layers.getLast? with
    | none => rw [ht] at h; cases h
    | some top =>
      rw [ht] at h
      cases h
      exact ⟨v, top, rfl, rfl, rfl⟩

theorem add_hashError_fields (m : LayeredMap) (s : String) (m' : LayeredMap)
    (h : m.Add s = AddResult.hashError m') :
    m.hashLookup s = none ∧ m' = { m with isCurrentImageValid := false } := by
  unfold LayeredMap.Add at h
  cases hh : m.hashLookup s with
  | none => rw [hh] at h; cases h; exact ⟨rfl, rfl⟩
  | some v =>
    rw [hh] at h
    cases ht : m.layers.getLast? with
    | none => rw [ht] at h; cases h
    | some top => rw [ht] at h; cases h

theorem addWhiteout_fields (m : LayeredMap) (s : String) (m' : LayeredMap)
    (h : m.AddWhiteout s = some m') :
    ∃ w, m.whiteouts.getLast? = some w ∧
      m' = { m with isCurrentImageValid := false,
                    whiteouts := m.whiteouts.dropLast ++ [insertW w s] } := by
  unfold LayeredMap.AddWhiteout at h
  cases hw : m.whiteouts.getLast? with
  | none => rw [hw] at h; cases h
  | some w =>
    rw [hw] at h
    cases h
    exact ⟨w, rfl, rfl⟩

theorem checkFileChange_fields (m : LayeredMap) (s : String) (b : Bool) (m' : LayeredMap)
    (h : m.CheckFileChange s = some (b, m')) :
    ∃ newV, m.hasher s = some newV ∧
      m' = { m with layerHashCache := insertS m.layerHashCache s newV } ∧
      (b = false ↔ findS m.currentImage s = some newV) := by
  unfold LayeredMap.CheckFileChange at h
  split at h
  · cases h
  · rename_i newV hh
    split at h
    · rename_i oldV hf
      split at h
      · rename_i he
        cases h
        exact ⟨newV, hh, rfl, by simp [hf, he]⟩
      · rename_i he
        cases h
        refine ⟨newV, hh, rfl, ?_⟩
        constructor
        · intro hb; cases hb
        · intro hx
          rw [hf] at hx
          cases hx
          exact absurd rfl he
    · rename_i hf
      cases h
      refine ⟨newV, hh, rfl, ?_⟩
      constructor
      · intro hb; cases hb
      · intro hx
        rw [hf] at hx
        cases hx

/-! Invariant preservation. -/

theorem mapInv_new (h c : String → Option String) : MapInv (NewLayeredMap h c) := by
  refine ⟨rfl, ?_, ?_⟩
  · intro hv; cases hv
  · intro k v hf; cases hf

theorem snapshot_mapInv (m : LayeredMap) (hi : MapInv m) : MapInv m.Snapshot := by
  obtain ⟨hlen, hci, _⟩ := hi
  obtain ⟨hl, hw, hch, _, hcim, _⟩ := snapshot_fields m
  refine ⟨?_, ?_, ?_⟩
  · rw [hl, hw]
    simp [hlen]
  · intro _
    rw [hcim, hl, hw, (updateCurrentImage_image m hci).1, flatten_snoc_empty _ _ hlen]
  · intro k v hf
    rw [hch] at hf
    cases hf

theorem step_mapInv (m m' : LayeredMap) (op : Op) (hi : MapInv m)
    (hs : step m op = some m') : MapInv m' := by
  obtain ⟨hlen, hci, hcache⟩ := hi
  cases op with
  | snapshot =>
    simp only [step] at hs
    cases hs
    exact snapshot_mapInv m ⟨hlen, hci, hcache⟩
  | add s =>
    simp only [step] at hs
    cases ha : m.Add s with
    | ok m₂ =>
      rw [ha] at hs
      cases hs
      obtain ⟨v, top, _, ht, hm⟩ := add_ok_fields m s _ ha
      subst hm
      refine ⟨?_, ?_, hcache⟩
      · show (m.layers.dropLast ++ [insertS top s v]).length = m.whiteouts.length
        rw [length_dropLast_append _ _ (ne_nil_of_getLast? _ _ ht), hlen]
      · intro hv2; cases hv2
    | hashError m₂ =>
      rw [ha] at hs
      cases hs
      obtain ⟨_, hm⟩ := add_hashError_fields m s _ ha
      subst hm
      refine ⟨hlen, ?_, hcache⟩
      intro hv2; cases hv2
    | panicked =>
      rw [ha] at hs
      cases hs
  | addWhiteout s =>
    simp only [step] at hs
    obtain ⟨w, hw, hm⟩ := addWhiteout_fields m s m' hs
    subst hm
    refine ⟨?_, ?_, hcache⟩
    · show m.layers.length = (m.whiteouts.dropLast ++ [insertW w s]).length
      rw [length_dropLast_append _ _ (ne_nil_of_getLast? _ _ hw), hlen]
    · intro hv2; cases hv2
  | checkFileChange s =>
    simp only [step] at hs
    cases hc : m.CheckFileChange s with
    | none =>
      rw [hc] at hs
      cases hs
      exact ⟨hlen, hci, hcache⟩
    | some p =>
      obtain ⟨b2, m2⟩ := p
      rw [hc] at hs
      cases hs
      obtain ⟨newV, hv, hm, _⟩ := checkFileChange_fields m s b2 m2 hc
      subst hm
      refine ⟨hlen, hci, ?_⟩
      intro k v hf
      show m.hasher k = some v
      rw [show ({ m with layerHashCache := insertS m.layerHashCache s newV } :
            LayeredMap).layerHashCache = insertS m.layerHashCache s newV from rfl,
          findS_insertS] at hf
      by_cases hk : k = s
      · subst hk
        rw [if_pos rfl] at hf
        cases hf
        exact hv
      · rw [if_neg hk] at hf
        exact hcache k v hf
  | currentPaths =>
    simp only [step] at hs
    cases hs
    obtain ⟨hl, hw, hch, hh⟩ := updateCurrentImage_layers m
    refine ⟨?_, ?_, ?_⟩
    · show m.UpdateCurrentImage.layers.length = m.UpdateCurrentImage.whiteouts.length
      rw [hl, hw, hlen]
    · intro _
      show m.UpdateCurrentImage.currentImage =
        flatten m.UpdateCurrentImage.layers m.UpdateCurrentImage.whiteouts
      rw [hl, hw, (updateCurrentImage_image m hci).1]
    · intro k v hf
      have hf2 : findS m.UpdateCurrentImage.layerHashCache k = some v := hf
      rw [hch] at hf2
      show m.UpdateCurrentImage.hasher k = some v
      rw [hh]
      exact hcache k v hf2

theorem runOps_mapInv (ops : List Op) (m m' : LayeredMap) (hi : MapInv m)
    (hr : runOps m ops = some m') : MapInv m' := by
  induction ops generalizing m with
  | nil =>
    simp only [runOps] at hr
    cases hr
    exact hi
  | cons op t ih =>
    simp only [runOps] at hr
    cases hst : step m op with
    | none => rw [hst] at hr; cases hr
    | some m₂ =>
      rw [hst] at hr
      exact ih m₂ (step_mapInv m m₂ op hi hst) hr

/-! The added layers are determined by the Snapshot and Add calls alone. -/

theorem step_layers (m m' : LayeredMap) (op : Op) (hc : cacheOk m)
    (hs : step m op = some m') :
    m'.layers = applyAdds m.hasher [op] m.layers ∧ m'.hasher = m.hasher := by
  cases op with
  | snapshot =>
    simp only [step] at hs
    cases hs
    obtain ⟨hl, _, _, _, _, hh⟩ := snapshot_fields m
    constructor
    · rw [hl]; rfl
    · exact hh
  | add s =>
    simp only [step] at hs
    cases ha : m.Add s with
    | ok m₂ =>
      rw [ha] at hs
      cases hs
      obtain ⟨v, top, hv, ht, hm⟩ := add_ok_fields m s _ ha
      subst hm
      have hv2 : m.hasher s = some v := by
        rw [← hashLookup_eq_hasher m hc s]; exact hv
      constructor
      · show m.layers.dropLast ++ [insertS top s v] = applyAdds m.hasher [Op.add s] m.layers
        simp [applyAdds, hv2, ht]
      · rfl
    | hashError m₂ =>
      rw [ha] at hs
      cases hs
      obtain ⟨hv, hm⟩ := add_hashError_fields m s _ ha
      subst hm
      have hv2 : m.hasher s = none := by
        rw [← hashLookup_eq_hasher m hc s]; exact hv
      constructor
      · show m.layers = applyAdds m.hasher [Op.add s] m.layers
        simp [applyAdds, hv2]
      · rfl
    | panicked =>
      rw [ha] at hs
      cases hs
  | addWhiteout s =>
    simp only [step] at hs
    obtain ⟨w, hw, hm⟩ := addWhiteout_fields m s m' hs
    subst hm
    exact ⟨rfl, rfl⟩
  | checkFileChange s =>
    simp only [step] at hs
    cases hcc : m.CheckFileChange s with
    | none =>
      rw [hcc] at hs
      cases hs
      exact ⟨rfl, rfl⟩
    | some p =>
      obtain ⟨b2, m2⟩ := p
      rw [hcc] at hs
      cases hs
      obtain ⟨newV, _, hm, _⟩ := checkFileChange_fields m s b2 m2 hcc
      subst hm
      exact ⟨rfl, rfl⟩
  | currentPaths =>
    simp only [step] at hs
    cases hs
    obtain ⟨hl, _, _, hh⟩ := updateCurrentImage_layers m
    exact ⟨hl, hh⟩

theorem runOps_layers (ops : List Op) (m m' : LayeredMap) (hi : MapInv m)
    (hr : runOps m ops = some m') :
    m'.layers = applyAdds m.hasher ops m.layers := by
  induction ops generalizing m with
  | nil =>
    simp only [runOps] at hr
    cases hr
    rfl
  | cons op t ih =>
    simp only [runOps] at hr
    cases hst : step m op with
    | none => rw [hst] at hr; cases hr
    | some m₂ =>
      rw [hst] at hr
      have hi2 := step_mapInv m m₂ op hi hst
      obtain ⟨hl2, hh2⟩ := step_layers m m₂ op hi.2.2 hst
      have hrec := ih m₂ hi2 hr
      rw [hrec, hh2, hl2]
      cases op <;> rfl

theorem applyAdds_addTrace (h : String → Option String) (ops : List Op) (ls : List Smap) :
    applyAdds h (addTrace ops) ls = applyAdds h ops ls := by
  induction ops generalizing ls with
  | nil => rfl
  | cons op t ih => cases op <;> simp only [addTrace, applyAdds] <;> exact ih _

/-! Claim theorems. -/

/-- Claim C1: for every LayerStack built by any finite sequence of API calls
on a fresh LayeredMap, GetCurrentPaths returns exactly the keys of the
mapping obtained by folding the layers in order over the empty mapping,
where each added entry is inserted (overwriting) and then each deleted entry
is removed. -/
theorem current_paths_eq_flatten (h c : String → Option String) (ops : List Op)
    (m' : LayeredMap) (hr : runOps (NewLayeredMap h c) ops = some m') :
    (m'.GetCurrentPaths).1 = (flatten m'.layers m'.whiteouts).map Prod.fst := by
  have hi := runOps_mapInv ops _ m' (mapInv_new h c) hr
  show m'.UpdateCurrentImage.currentImage.map Prod.fst = _
  rw [(updateCurrentImage_image m' hi.2.1).1]

/-- Witness for C1 at the S1 scenario of the spec. -/
theorem current_paths_eq_flatten_witness :
    runOps (NewLayeredMap hId hId) opsS1 = some mS1 ∧
    (mS1.GetCurrentPaths).1 = (flatten mS1.layers mS1.whiteouts).map Prod.fst :=
  ⟨rfl, current_paths_eq_flatten hId hId opsS1 mS1 rfl⟩

/-- Claim C9: on every reachable LayeredMap the added-layer list and the
whiteout-layer list have equal length, and every successful call either
preserves the lengths of both or is a Snapshot appending exactly one empty
element to each, so the indexed access whiteouts[i] next to layers[i] in the
flattening loop stays in bounds. -/
theorem layers_whiteouts_aligned (h c : String → Option String) (ops : List Op)
    (m' : LayeredMap) (hr : runOps (NewLayeredMap h c) ops = some m') :
    m'.layers.length = m'.whiteouts.length ∧
    (∀ (n n' : LayeredMap) (op : Op), step n op = some n' →
      (n'.layers.length = n.layers.length ∧ n'.whiteouts.length = n.whiteouts.length) ∨
      (op = Op.snapshot ∧ n'.layers = n.layers ++ [[]] ∧ n'.whiteouts = n.whiteouts ++ [[]])) := by
  constructor
  · exact (runOps_mapInv ops _ m' (mapInv_new h c) hr).1
  · intro n n' op hs
    cases op with
    | snapshot =>
      simp only [step] at hs
      cases hs
      obtain ⟨hl, hw, _, _, _, _⟩ := snapshot_fields n
      exact Or.inr ⟨rfl, hl, hw⟩
    | add s =>
      simp only [step] at hs
      cases ha : n.Add s with
      | ok m₂ =>
        rw [ha] at hs
        cases hs
        obtain ⟨v, top, _, ht, hm⟩ := add_ok_fields n s _ ha
        subst hm
        refine Or.inl ⟨?_, rfl⟩
        show (n.layers.dropLast ++ [insertS top s v]).length = n.layers.length
        exact length_dropLast_append _ _ (ne_nil_of_getLast? _ _ ht)
      | hashError m₂ =>
        rw [ha] at hs
        cases hs
        obtain ⟨_, hm⟩ := add_hashError_fields n s _ ha
        subst hm
        exact Or.inl ⟨rfl, rfl⟩
      | panicked =>
        rw [ha] at hs
        cases hs
    | addWhiteout s =>
      simp only [step] at hs
      obtain ⟨w, hw, hm⟩ := addWhiteout_fields n s n' hs
      subst hm
      refine Or.inl ⟨rfl, ?_⟩
      show (n.whiteouts.dropLast ++ [insertW w s]).length = n.whiteouts.length
      exact length_dropLast_append _ _ (ne_nil_of_getLast? _ _ hw)
    | checkFileChange s =>
      simp only [step] at hs
      cases hcc : n.CheckFileChange s with
      | none =>
        rw [hcc] at hs
        cases hs
        exact Or.inl ⟨rfl, rfl⟩
      | some p =>
        obtain ⟨b2, m2⟩ := p
        rw [hcc] at hs
        cases hs
        obtain ⟨newV, _, hm, _⟩ := checkFileChange_fields n s b2 m2 hcc
        subst hm
        exact Or.inl ⟨rfl, rfl⟩
    | currentPaths =>
      simp only [step] at hs
      cases hs
      obtain ⟨hl, hw, _, _⟩ := updateCurrentImage_layers n
      refine Or.inl ⟨?_, ?_⟩
      · show n.UpdateCurrentImage.layers.length = n.layers.length
        rw [hl]
      · show n.UpdateCurrentImage.whiteouts.length = n.whiteouts.length
        rw [hw]

/-- Witness for C9 at the S1 scenario. -/
theorem layers_whiteouts_aligned_witness :
    runOps (NewLayeredMap hId hId) opsS1 = some mS1 ∧
    mS1.layers.length = mS1.whiteouts.length :=
  ⟨rfl, (layers_whiteouts_aligned hId hId opsS1 mS1 rfl).1⟩

/-- Claim C6: Key depends only on the per-layer added contents. Two builds
over the same hasher whose call sequences agree on their Snapshot and Add
subsequence produce equal Key values however their whiteout and query calls
differ; and Key values of any two maps agree exactly when their layer stacks
agree, so the digest preserves the order of the added history. -/
theorem key_ignores_whiteouts (h c₁ c₂ : String → Option String)
    (ops₁ ops₂ : List Op) (m₁ m₂ : LayeredMap)
    (h₁ : runOps (NewLayeredMap h c₁) ops₁ = some m₁)
    (h₂ : runOps (NewLayeredMap h c₂) ops₂ = some m₂)
    (ht : addTrace ops₁ = addTrace ops₂) :
    m₁.Key = m₂.Key ∧
    (∀ n₁ n₂ : LayeredMap, n₁.layers = n₂.layers → n₁.Key = n₂.Key) ∧
    (∀ n₁ n₂ : LayeredMap, n₁.Key = n₂.Key → n₁.layers = n₂.layers) := by
  refine ⟨?_, fun n₁ n₂ hh => hh, fun n₁ n₂ hh => hh⟩
  have e₁ := runOps_layers ops₁ _ m₁ (mapInv_new h c₁) h₁
  have e₂ := runOps_layers ops₂ _ m₂ (mapInv_new h c₂) h₂
  show m₁.layers = m₂.layers
  rw [e₁, e₂]
  show applyAdds h ops₁ [] = applyAdds h ops₂ []
  rw [← applyAdds_addTrace h ops₁, ← applyAdds_addTrace h ops₂, ht]

/-- Witness for C6: ops6a and ops6b share their add history while their
whiteouts differ, and their Keys agree. -/
theorem key_ignores_whiteouts_witness :
    addTrace ops6a = addTrace ops6b ∧ m6a.Key = m6b.Key :=
  ⟨rfl, (key_ignores_whiteouts hId hId hId ops6a ops6b m6a m6b rfl rfl rfl).1⟩

/-- Claim C10: when Add on a reachable map returns a hash error, the layer
contents are unchanged: Get, GetCurrentPaths and Key observe the same
results as before the failed call; only the validity bit of the CurrentImage
cache was cleared, which no observation can see. -/
theorem add_error_preserves (h c : String → Option String) (ops : List Op)
    (m m' : LayeredMap) (s : String)
    (hr : runOps (NewLayeredMap h c) ops = some m)
    (he : m.Add s = AddResult.hashError m') :
    m'.layers = m.layers ∧ m'.whiteouts = m.whiteouts ∧
    (∀ q, m'.Get q = m.Get q) ∧
    (m'.GetCurrentPaths).1 = (m.GetCurrentPaths).1 ∧
    m'.Key = m.Key := by
  have hi := runOps_mapInv ops _ m (mapInv_new h c) hr
  obtain ⟨_, hm⟩ := add_hashError_fields m s m' he
  subst hm
  refine ⟨rfl, rfl, fun q => rfl, ?_, rfl⟩
  show ({ m with isCurrentImageValid := false } :
      LayeredMap).UpdateCurrentImage.currentImage.map Prod.fst =
    m.UpdateCurrentImage.currentImage.map Prod.fst
  have h1 : ({ m with isCurrentImageValid := false } :
      LayeredMap).UpdateCurrentImage.currentImage = flatten m.layers m.whiteouts :=
    (updateCurrentImage_image _ (fun hv => by cases hv)).1
  have h2 : m.UpdateCurrentImage.currentImage = flatten m.layers m.whiteouts :=
    (updateCurrentImage_image m hi.2.1).1
  rw [h1, h2]

/-- Witness for C10: the failing Add of /bad leaves GetCurrentPaths
unchanged. -/
theorem add_error_preserves_witness :
    mBad.Add "/bad" = AddResult.hashError mBadAfter ∧
    (mBadAfter.GetCurrentPaths).1 = (mBad.GetCurrentPaths).1 :=
  ⟨rfl, (add_error_preserves hBad hBad [Op.snapshot] mBad mBadAfter "/bad" rfl rfl).2.2.2.1⟩

/-- Claim C5: Get scans the layers from the topmost down and returns the
first added hit, ignoring whiteouts entirely: it returns none exactly when
no layer added the path, it depends only on the layer stack, and a hit in a
layer above which no layer mentions the path wins regardless of everything
below it and of every whiteout. -/
theorem get_first_added_hit (m : LayeredMap) (s : String) :
    (m.Get s = none ↔ ∀ l, l ∈ m.layers → findS l s = none) ∧
    (∀ m₂ : LayeredMap, m.layers = m₂.layers → m.Get s = m₂.Get s) ∧
    (∀ pre lay post, m.layers = pre ++ lay :: post →
      (∀ l₂, l₂ ∈ post → findS l₂ s = none) → findS lay s ≠ none →
      m.Get s = findS lay s) := by
  refine ⟨scanTop_eq_none s m.layers, fun m₂ hl => by unfold LayeredMap.Get; rw [hl], ?_⟩
  intro pre lay post hsplit hpost hhit
  have hsplit2 : m.layers = pre ++ ([lay] ++ post) := by rw [hsplit]; simp
  unfold LayeredMap.Get
  rw [hsplit2, scanTop_append s pre ([lay] ++ post), scanTop_append s [lay] post,
      (scanTop_eq_none s post).mpr hpost]
  show (match findS lay s with | some v => some v | none => scanTop s pre) = findS lay s
  cases hcase : findS lay s with
  | none => exact absurd hcase hhit
  | some v => rfl

/-- Witness for C5: the hit of /a in mGetScenario survives the whiteout of
/a recorded in the top layer. -/
theorem get_first_added_hit_witness :
    mGetScenario.Get "/a" = findS [("/a", "/a")] "/a" :=
  (get_first_added_hit mGetScenario "/a").2.2 [] [("/a", "/a")] [[]] rfl
    (by intro l₂ hl₂; simp at hl₂; subst hl₂; rfl) (by decide)

/-- Counterexample for C3: after Snapshot and Add of /a, the flattening of
all layers including the open top maps /a to the very hash the hasher
returns, yet CheckFileChange reports /a as changed, because it consults the
stale cached currentImage field and not the flattening. -/
theorem checkFileChange_stale_counterexample :
    mAfterAdd.hasher "/a" = some "/a" ∧
    findS (flatten mAfterAdd.layers mAfterAdd.whiteouts) "/a" = some "/a" ∧
    (mAfterAdd.CheckFileChange "/a").map Prod.fst = some true :=
  ⟨rfl, rfl, rfl⟩

/-- Claim C3 amended: when the hasher succeeds on a path, CheckFileChange
returns false exactly when the cached currentImage field, as last refreshed
at the most recent Snapshot or GetCurrentPaths and not including top-layer
mutations made since, maps the path to the same layer hash; a path absent
from that cached image is reported as changed. The call changes no field
except the hash cache, which records the computed hash. -/
theorem checkFileChange_cached_image (m : LayeredMap) (s v : String) (b : Bool)
    (m' : LayeredMap) (hv : m.hasher s = some v)
    (hc : m.CheckFileChange s = some (b, m')) :
    (b = false ↔ findS m.currentImage s = some v) ∧
    m'.layers = m.layers ∧ m'.whiteouts = m.whiteouts ∧
    m'.currentImage = m.currentImage ∧
    m'.layerHashCache = insertS m.layerHashCache s v := by
  obtain ⟨newV, hv2, hm, hb⟩ := checkFileChange_fields m s b m' hc
  rw [hv] at hv2
  cases hv2
  subst hm
  exact ⟨hb, rfl, rfl, rfl, rfl⟩

/-- Witness for C3 amended at mAfterAdd, whose cached image is empty. -/
theorem checkFileChange_cached_image_witness :
    mAfterAdd.CheckFileChange "/a" = some (true, mAfterCheck) ∧
    (true = false ↔ findS mAfterAdd.currentImage "/a" = some "/a") :=
  ⟨rfl, (checkFileChange_cached_image mAfterAdd "/a" "/a" true mAfterCheck rfl rfl).1⟩

/-- Counterexample for C4: Add with no open layer does not return an error
as the claim states; it panics on the out-of-range index layers[-1]. -/
theorem add_no_layer_panics :
    (NewLayeredMap hId hId).Add "/x" = AddResult.panicked := rfl

/-- Claim C4 amended: Add returns an error exactly when the hash lookup
(cache first, then hasher) fails; when the hash is available but no layer
is open it crashes instead of returning an error; otherwise it succeeds and
records the path with its hash in the top added layer. -/
theorem add_cases (m : LayeredMap) (s : String) :
    ((∃ m', m.Add s = AddResult.hashError m') ↔ m.hashLookup s = none) ∧
    (m.Add s = AddResult.panicked ↔ (m.hashLookup s).isSome ∧ m.layers = []) ∧
    (∀ v, m.hashLookup s = some v → m.layers ≠ [] →
      ∃ m', m.Add s = AddResult.ok m' ∧ m'.Get s = some v ∧
        m'.whiteouts = m.whiteouts ∧ m'.layers.length = m.layers.length) := by
  refine ⟨?_, ?_, ?_⟩
  · constructor
    · rintro ⟨m', hm'⟩
      exact (add_hashError_fields m s m' hm').1
    · intro hn
      refine ⟨{ m with isCurrentImageValid := false }, ?_⟩
      unfold LayeredMap.Add
      rw [hn]
  · constructor
    · intro hp
      unfold LayeredMap.Add at hp
      cases hh : m.hashLookup s with
      | none => rw [hh] at hp; cases hp
      | some v =>
        rw [hh] at hp
        cases ht : m.layers.getLast? with
        | some top => rw [ht] at hp; cases hp
        | none =>
          refine ⟨rfl, ?_⟩
          cases hl : m.layers with
          | nil => rfl
          | cons a t =>
            rw [hl] at ht
            rcases List.getLast?_eq_none_iff.mp ht with h
            cases h
    · rintro ⟨hsome, hnil⟩
      unfold LayeredMap.Add
      cases hh : m.hashLookup s with
      | none => rw [hh] at hsome; cases hsome
      | some v =>
        rw [hnil]
        rfl
  · intro v hv hne
    cases ht : m.layers.getLast? with
    | none => exact absurd (List.getLast?_eq_none_iff.mp ht) hne
    | some top =>
      refine ⟨{ m with isCurrentImageValid := false,
                       layers := m.layers.dropLast ++ [insertS top s v] }, ?_, ?_, rfl, ?_⟩
      · unfold LayeredMap.Add
        rw [hv, ht]
      · show scanTop s (m.layers.dropLast ++ [insertS top s v]) = some v
        rw [scanTop_append s _ [insertS top s v]]
        have hx : scanTop s [insertS top s v] = some v := by
          show (match (none : Option String) with
            | some w => some w
            | none => findS (insertS top s v) s) = some v
          show findS (insertS top s v) s = some v
          rw [findS_insertS]
          simp
        rw [hx]
      · show (m.layers.dropLast ++ [insertS top s v]).length = m.layers.length
        exact length_dropLast_append _ _ hne

/-- Witness for C4 amended: a successful Add into the single open layer. -/
theorem add_cases_witness :
    ∃ m', m4Snap.Add "/a" = AddResult.ok m' ∧ m'.Get "/a" = some "/a" ∧
      m'.whiteouts = m4Snap.whiteouts ∧ m'.layers.length = m4Snap.layers.length :=
  (add_cases m4Snap "/a").2.2 "/a" rfl (by decide)

/-- Counterexample for C7: Snapshot marks the CurrentImage cache valid, not
invalid: right after the first Snapshot on a fresh map the validity bit is
true, so the open-layer operation refreshes the cache rather than
invalidating it. -/
theorem snapshot_not_invalidating :
    (NewLayeredMap hId hId).Snapshot.isCurrentImageValid = true := rfl

/-- Claim C7 amended: Snapshot pushes exactly one new empty layer (empty
added mapping and empty whiteout set), refreshes the CurrentImage cache
(recomputing it when stale and leaving it marked valid), and clears the
HashCache, so an Add issued after Snapshot without a prior CheckFileChange
invokes the hasher rather than reusing a hash cached in the previous
layer. -/
theorem snapshot_spec (m : LayeredMap)
    (hci : m.isCurrentImageValid = true → m.currentImage = flatten m.layers m.whiteouts) :
    m.Snapshot.layers = m.layers ++ [[]] ∧
    m.Snapshot.whiteouts = m.whiteouts ++ [[]] ∧
    m.Snapshot.layerHashCache = [] ∧
    m.Snapshot.isCurrentImageValid = true ∧
    m.Snapshot.currentImage = flatten m.layers m.whiteouts ∧
    (∀ p, m.Snapshot.hashLookup p = m.hasher p) := by
  obtain ⟨hl, hw, hch, hv, hcim, hh⟩ := snapshot_fields m
  refine ⟨hl, hw, hch, hv, ?_, ?_⟩
  · rw [hcim, (updateCurrentImage_image m hci).1]
  · intro p
    unfold LayeredMap.hashLookup
    rw [hch]
    show m.Snapshot.hasher p = m.hasher p
    exact congrFun hh p

/-- Witness for C7 amended on a fresh map. -/
theorem snapshot_spec_witness :
    (NewLayeredMap hId hId).Snapshot.layers = [] ++ [[]] ∧
    (NewLayeredMap hId hId).Snapshot.layerHashCache = [] :=
  ⟨(snapshot_spec (NewLayeredMap hId hId) (fun hv => by cases hv)).1,
   (snapshot_spec (NewLayeredMap hId hId) (fun hv => by cases hv)).2.2.1⟩

/-! Claim C2: the dependency list and its per-copy contribution view. -/

theorem procCmds_flat (E : DepOracles) (index : Nat) (cmds : List DCommand) :
    ∀ (env : List String) (ba : List (String × Option String)) (accL : List (List String)),
    procCmds E index cmds env ba accL.flatten =
      (procCmdsLists E index cmds env ba accL).map (fun r => (r.1, r.2.1, r.2.2.flatten)) := by
  induction cmds with
  | nil => intro env ba accL; rfl
  | cons c rest ih =>
    intro env ba accL
    cases c with
    | envCmd pairs =>
      cases hu : E.updateConfigEnv pairs env (E.replacementEnvs ba env) with
      | error e =>
        simp only [procCmds, procCmdsLists, hu]
        rfl
      | ok env' =>
        simp only [procCmds, procCmdsLists, hu]
        exact ih env' ba accL
    | argCmd k v =>
      simp only [procCmds, procCmdsLists]
      exact ih env (ba ++ [(k, v)]) accL
    | copyCmd fr sd =>
      by_cases hfr : fr ≠ toString index
      · simp only [procCmds, procCmdsLists, if_pos hfr]
        exact ih env ba accL
      · cases hr : E.resolveEnvList sd (E.replacementEnvs ba env) with
        | error e =>
          simp only [procCmds, procCmdsLists, if_neg hfr, hr]
          rfl
        | ok resolved =>
          cases hs : E.resolveSources resolved with
          | error e =>
            simp only [procCmds, procCmdsLists, if_neg hfr, hr, hs]
            rfl
          | ok srcs =>
            simp only [procCmds, procCmdsLists, if_neg hfr, hr, hs]
            have hjj : accL.flatten ++ srcs.map absolutize =
                (accL ++ [srcs.map absolutize]).flatten := by simp
            rw [hjj]
            exact ih env ba (accL ++ [srcs.map absolutize])
    | otherCmd =>
      simp only [procCmds, procCmdsLists]
      exact ih env ba accL

theorem depStages_flat (E : DepOracles) (index : Nat) (cn : String) (ie : List String)
    (ss : List (Nat × DStage)) :
    ∀ (ba : List (String × Option String)) (accL : List (List String)),
    depStages E index cn ie ss ba accL.flatten =
      (depStagesLists E index cn ie ss ba accL).map (fun r => (r.1.flatten, r.2)) := by
  induction ss with
  | nil => intro ba accL; rfl
  | cons p rest ih =>
    obtain ⟨si, st⟩ := p
    intro ba accL
    by_cases hle : si ≤ index
    · simp only [depStages, depStagesLists, if_pos hle]
      exact ih ba accL
    · cases hcfg : (if st.baseName = NoBaseImage then Except.ok []
                    else if st.baseName = cn then Except.ok ie
                    else E.configOf st.baseName : Except String (List String)) with
      | error e =>
        simp only [depStages, depStagesLists, if_neg hle, hcfg]
        rfl
      | ok env0 =>
        simp only [depStages, depStagesLists, if_neg hle, hcfg]
        rw [procCmds_flat E index st.commands env0 ba accL]
        cases hpc : procCmdsLists E index st.commands env0 ba accL with
        | error e => rfl
        | ok r =>
          obtain ⟨e1, ba', accL'⟩ := r
          exact ih ba' accL'

/-- Counterexample for C2: two later copies naming the source /x of stage 0
make Dependencies return /x twice; the returned list is not deduplicated. -/
theorem dependencies_duplicate_counterexample :
    Dependencies E0 0 stagesDup [] [] = Except.ok ["/x", "/x"] ∧
    ¬ (["/x", "/x"] : List String).Nodup :=
  ⟨rfl, by decide⟩

/-- Claim C2 amended: the dependency list is the in-order concatenation of
the resolved absolutized source lists of the later cross-stage copies whose
From equals the stage index; no deduplication is applied, so a path occurs
once per copy that resolves to it. -/
theorem dependencies_concat (E : DepOracles) (index : Nat) (stages : List DStage)
    (imageEnv : List String) (ba0 : List (String × Option String)) (ds : List String)
    (h : Dependencies E index stages imageEnv ba0 = Except.ok ds) :
    ∃ lss, DependenciesLists E index stages imageEnv ba0 = Except.ok lss ∧ ds = lss.flatten := by
  unfold Dependencies at h
  unfold DependenciesLists
  rw [show ([] : List String) = ([] : List (List String)).flatten from rfl,
      depStages_flat E index (((stages.get? index).map DStage.name).getD "") imageEnv
        stages.enum ba0 []] at h
  cases hd : depStagesLists E index (((stages.get? index).map DStage.name).getD "") imageEnv
      stages.enum ba0 [] with
  | error e => rw [hd] at h; cases h
  | ok r =>
    rw [hd] at h
    cases h
    exact ⟨r.1, rfl, rfl⟩

/-- Witness for C2 amended at the duplicate script. -/
theorem dependencies_concat_witness :
    ∃ lss, DependenciesLists E0 0 stagesDup [] [] = Except.ok lss ∧
      (["/x", "/x"] : List String) = lss.flatten :=
  dependencies_concat E0 0 stagesDup [] [] ["/x", "/x"] rfl

/-! Claim C8: stage resolution. -/

theorem resolveCmd_elem_idem (nti : Smap)
    (hnc : ∀ k v, findS nti k = some v → findS nti v = none) (c : DCommand) :
    resolveCmds nti (resolveCmds nti [c]) = resolveCmds nti [c] := by
  cases c with
  | copyCmd fr sd =>
    by_cases hfr : fr ≠ ""
    · cases hf : findS nti fr with
      | none => simp [resolveCmds, hfr, hf]
      | some v =>
        have hv := hnc fr v hf
        by_cases hvne : v ≠ ""
        · simp [resolveCmds, hfr, hf, hvne, hv]
        · simp [resolveCmds, hfr, hf, hvne]
    · have hfr2 : fr = "" := not_not.mp hfr
      subst hfr2
      simp [resolveCmds]
  | envCmd pairs => rfl
  | argCmd k v => rfl
  | otherCmd => rfl

theorem resolveCmds_idem (nti : Smap)
    (hnc : ∀ k v, findS nti k = some v → findS nti v = none) (cmds : List DCommand) :
    resolveCmds nti (resolveCmds nti cmds) = resolveCmds nti cmds := by
  induction cmds with
  | nil => rfl
  | cons c rest ih =>
    have hsplit : resolveCmds nti (c :: rest) = resolveCmds nti [c] ++ resolveCmds nti rest := by
      simp [resolveCmds]
    have hdist : resolveCmds nti (resolveCmds nti [c] ++ resolveCmds nti rest) =
        resolveCmds nti (resolveCmds nti [c]) ++ resolveCmds nti (resolveCmds nti rest) := by
      simp [resolveCmds]
    rw [hsplit, hdist, resolveCmd_elem_idem nti hnc c, ih]

theorem resolveAux_idem (len : Nat) (ss : List DStage) : ∀ (nti : Smap) (i : Nat),
    i + ss.length = len →
    (∀ k v, findS nti k = some v → ∃ j, j < i ∧ j < len ∧ v = toString j) →
    (∀ j, i ≤ j → j < len → findS nti (toString j) = none) →
    (∀ k v, findS nti k = some v → findS nti v = none) →
    (∀ m st j, ss.get? m = some st → j < len → st.name = toString j → j = i + m) →
    resolveAux nti i (resolveAux nti i ss) = resolveAux nti i ss := by
  induction ss with
  | nil => intro nti i _ _ _ _ _; rfl
  | cons st rest ih =>
    intro nti i hlen h1 h2 h3 hfut
    have hilen : i < len := by
      simp only [List.length_cons] at hlen
      omega
    have hlen' : (i + 1) + rest.length = len := by
      simp only [List.length_cons] at hlen
      omega
    have hNameNum : ∀ j, j < len → st.name = toString j → j = i := by
      intro j hj hn
      have := hfut 0 st j rfl hj hn
      omega
    have hfut' : ∀ m st' j, rest.get? m = some st' → j < len → st'.name = toString j →
        j = (i + 1) + m := by
      intro m st' j hm hj hn
      have := hfut (m + 1) st' j (by simpa using hm) hj hn
      omega
    by_cases hname : st.name ≠ toString i
    · have hA1 : ∀ k v, findS (insertS nti st.name (toString i)) k = some v →
          ∃ j, j < i + 1 ∧ j < len ∧ v = toString j := by
        intro k v hf
        rw [findS_insertS] at hf
        by_cases hk : k = st.name
        · rw [if_pos hk] at hf
          cases hf
          exact ⟨i, Nat.lt_succ_self i, hilen, rfl⟩
        · rw [if_neg hk] at hf
          obtain ⟨j, hj1, hj2, hj3⟩ := h1 k v hf
          exact ⟨j, Nat.lt_succ_of_lt hj1, hj2, hj3⟩
      have hA2 : ∀ j, i + 1 ≤ j → j < len →
          findS (insertS nti st.name (toString i)) (toString j) = none := by
        intro j hj1 hj2
        rw [findS_insertS]
        by_cases hk : toString j = st.name
        · exfalso
          have := hNameNum j hj2 hk.symm
          omega
        · rw [if_neg hk]
          exact h2 j (by omega) hj2
      have hA3 : ∀ k v, findS (insertS nti st.name (toString i)) k = some v →
          findS (insertS nti st.name (toString i)) v = none := by
        intro k v hf
        rw [findS_insertS] at hf
        rw [findS_insertS]
        by_cases hk : k = st.name
        · rw [if_pos hk] at hf
          cases hf
          by_cases hv : toString i = st.name
          · exact absurd hv.symm hname
          · rw [if_neg hv]
            exact h2 i (Nat.le_refl i) hilen
        · rw [if_neg hk] at hf
          obtain ⟨j, hj1, hj2, hj3⟩ := h1 k v hf
          by_cases hv : v = st.name
          · exfalso
            have hsn : st.name = toString j := by rw [← hv, hj3]
            have := hNameNum j hj2 hsn
            omega
          · rw [if_neg hv]
            exact h3 k v hf
      simp only [resolveAux, if_pos hname]
      rw [resolveCmds_idem _ hA3 st.commands,
          ih (insertS nti st.name (toString i)) (i + 1) hlen' hA1 hA2 hA3 hfut']
    · have hA1 : ∀ k v, findS nti k = some v → ∃ j, j < i + 1 ∧ j < len ∧ v = toString j := by
        intro k v hf
        obtain ⟨j, hj1, hj2, hj3⟩ := h1 k v hf
        exact ⟨j, Nat.lt_succ_of_lt hj1, hj2, hj3⟩
      have hA2 : ∀ j, i + 1 ≤ j → j < len → findS nti (toString j) = none := by
        intro j hj1 hj2
        exact h2 j (by omega) hj2
      simp only [resolveAux, if_neg hname]
      rw [resolveCmds_idem _ h3 st.commands, ih nti (i + 1) hlen' hA1 hA2 h3 hfut']

/-- Counterexample for C8: with the first two stages named by the swapped
numeric index strings 1 and 0, a second ResolveStages run rewrites the
already-resolved From field again, so the resolver is not idempotent on
every parsed stage list. -/
theorem resolveStages_not_idempotent :
    ResolveStages (ResolveStages stagesNum) ≠ ResolveStages stagesNum := by decide

/-- Claim C8 amended: ResolveStages is idempotent on every stage list in
which no stage bears the numeric index string of a different stage as its
name (in particular whenever no stage name is numeric): running it a second
time leaves every stage and every copy From field unchanged. Known symbolic
names are rewritten to index strings on the first run; unknown From values,
including external image references, are untouched. -/
theorem resolveStages_idem (stages : List DStage)
    (hnames : ∀ m st j, stages.get? m = some st → j < stages.length →
      st.name = toString j → j = m) :
    ResolveStages (ResolveStages stages) = ResolveStages stages :=
  resolveAux_idem stages.length stages [] 0 (by simp)
    (fun k v hf => by cases hf)
    (fun j _ _ => rfl)
    (fun k v hf => by cases hf)
    (fun m st j hm hj hn => by simpa using hnames m st j hm hj hn)

/-- Witness for C8 amended at the S3 script with symbolic stage names. -/
theorem resolveStages_idem_witness :
    ResolveStages (ResolveStages stagesNamed) = ResolveStages stagesNamed :=
  resolveStages_idem stagesNamed (by
    intro m st j hm hj hn
    have hj2 : j < 2 := by simpa [stagesNamed] using hj
    have hm2 : m < 2 := by
      by_contra hge
      push_neg at hge
      rw [List.get?_eq_none.mpr (by simpa [stagesNamed] using hge)] at hm
      cases hm
    interval_cases m <;> interval_cases j <;>
      (first
        | rfl
        | (simp [stagesNamed] at hm
           subst hm
           exact absurd hn (by decide))))

end Kaniko
